import Mathlib

/-!
Verification of the algebraic kernel of the barretenberg proving system:
the ProtoGalaxy folding prover (`protogalaxy_prover.hpp`), the lookup
grand-product relation (`lookup_relation.hpp`) and the ECCVM set relation
(`ecc_set_relation.hpp`).

The C++ code is templated over the prime field `FF` of the flavor in use, so
every definition below is parametrised by an arbitrary field `F`.  C++
`std::vector` subscript accesses are modelled as checked accesses: an
out-of-bounds read or write (undefined behaviour in the source) makes the
modelled computation return `none`.
-/

namespace Barretenberg

section ListHelpers

variable {α : Type*}

/-- Checked write `xs[i] = v` into a `std::vector` modelled as a list: writing
past the end of the vector is out of bounds and yields `none`. -/
def setChecked (xs : List α) (i : ℕ) (v : α) : Option (List α) :=
  if i < xs.length then some (xs.set i v) else none

/-- Checked in-place `xs[i] += x` on a `std::vector` modelled as a list. -/
def addAt [Add α] (xs : List α) (i : ℕ) (x : α) : Option (List α) :=
  match xs[i]? with
  | none => none
  | some cur => some (xs.set i (cur + x))

theorem getD_replicate (n i : ℕ) (d : α) : (List.replicate n d).getD i d = d := by
  induction n generalizing i with
  | zero => simp [List.getD_nil]
  | succ n ih =>
    cases i with
    | zero => simp [List.replicate_succ]
    | succ i => rw [List.replicate_succ, List.getD_cons_succ]; exact ih i

theorem getD_set (l : List α) (i j : ℕ) (v d : α) :
    (l.set i v).getD j d = if i = j ∧ i < l.length then v else l.getD j d := by
  rw [List.getD_eq_getElem?_getD, List.getD_eq_getElem?_getD, List.getElem?_set]
  by_cases hij : i = j
  · subst hij
    by_cases hi : i < l.length
    · simp [hi]
    · simp [hi, List.getElem?_eq_none (by omega : l.length ≤ i)]
  · simp [hij]

theorem getD_of_length_le (l : List α) (j : ℕ) (d : α) (h : l.length ≤ j) :
    l.getD j d = d := by
  rw [List.getD_eq_getElem?_getD, List.getElem?_eq_none h]
  rfl

theorem getElem?_eq_some_getD (l : List α) (j : ℕ) (d : α) (h : j < l.length) :
    l[j]? = some (l.getD j d) := by
  rw [List.getElem?_eq_getElem h, List.getD_eq_getElem l d h]

theorem eq_ofFn_of_getD {n : ℕ} (l : List α) (d : α) (f : Fin n → α)
    (hlen : l.length = n) (h : ∀ j : Fin n, l.getD (j : ℕ) d = f j) :
    l = List.ofFn f := by
  apply List.ext_getElem (by simp [hlen])
  intro j h₁ h₂
  rw [List.getElem_ofFn]
  have hj : j < n := by omega
  have := h ⟨j, hj⟩
  rwa [List.getD_eq_getElem l d h₁] at this

theorem getD_ofFn {n : ℕ} (f : Fin n → α) (d : α) (i : ℕ) (h : i < n) :
    (List.ofFn f).getD i d = f ⟨i, h⟩ := by
  rw [List.getD_eq_getElem (List.ofFn f) d (by simpa using h), List.getElem_ofFn]

theorem getD_append_replicate (left : List α) (n j : ℕ) (d : α) :
    (left ++ List.replicate n d).getD j d = left.getD j d := by
  by_cases h : j < left.length
  · exact List.getD_append left (List.replicate n d) d j h
  · rw [List.getD_append_right left _ d j (by omega), getD_replicate,
      getD_of_length_le left j d (by omega)]

end ListHelpers

/-!
Part 1: `ProtoGalaxyProver_::compute_round_challenge_pows` from
`protogalaxy_prover.hpp`:

    static std::vector<FF> compute_round_challenge_pows(size_t log_instance_size, FF round_challenge)
    {
        std::vector<FF> pows(log_instance_size);
        pows[0] = round_challenge;
        for (size_t i = 1; i < log_instance_size; i++) {
            pows[i] = pows[i - 1].sqr();
        }
        return pows;
    }
-/

namespace ProtoGalaxyProver

variable {F : Type*} [Field F]

/-- Body of the loop `for (i = 1; i < log_instance_size; i++) pows[i] = pows[i-1].sqr();`
of `compute_round_challenge_pows`.  Both the read `pows[i - 1]` and the write
`pows[i]` are modelled as checked vector accesses. -/
def crpLoop (t : ℕ) (i : ℕ) (pows : List F) : Option (List F) :=
  if _h : i < t then
    match pows[i - 1]? with
    | none => none
    | some prev =>
      match setChecked pows i (prev * prev) with
      | none => none
      | some pows₁ => crpLoop t (i + 1) pows₁
  else some pows
termination_by t - i

/-- Model of `ProtoGalaxyProver_::compute_round_challenge_pows`.  The vector
`pows` is allocated with `log_instance_size` default-constructed (zero)
entries, `pows[0]` is assigned the round challenge (an out-of-bounds write
when `log_instance_size = 0`), and then the squaring loop runs. -/
def compute_round_challenge_pows (log_instance_size : ℕ) (round_challenge : F) :
    Option (List F) :=
  match setChecked (List.replicate log_instance_size (0 : F)) 0 round_challenge with
  | none => none
  | some pows => crpLoop log_instance_size 1 pows

theorem crpLoop_eq (t : ℕ) (δ : F) :
    ∀ n i pows, t - i = n → 1 ≤ i → i ≤ t → pows.length = t →
      (∀ j, j < i → pows.getD j 0 = δ ^ (2 ^ j)) →
      crpLoop t i pows = some (List.ofFn fun k : Fin t => δ ^ (2 ^ (k : ℕ))) := by
  intro n
  induction n with
  | zero =>
    -- loop exit: t - i = 0 and i ≤ t force i = t, and pows is fully written
    intro i pows hn h1 hit hlen hinv
    rw [crpLoop.eq_def, dif_neg (by omega)]
    congr 1
    refine eq_ofFn_of_getD pows 0 _ (by omega) fun j => ?_
    exact hinv (j : ℕ) (by have := j.isLt; omega)
  | succ n ih =>
    -- loop body runs once more: i < t
    intro i pows hn h1 hit hlen hinv
    have hlt : i < t := by omega
    have hprev : pows[i - 1]? = some (pows.getD (i - 1) 0) :=
      getElem?_eq_some_getD pows (i - 1) 0 (by omega)
    have hset : setChecked pows i (pows.getD (i - 1) 0 * pows.getD (i - 1) 0) =
        some (pows.set i (pows.getD (i - 1) 0 * pows.getD (i - 1) 0)) := by
      simp only [setChecked, hlen]
      exact if_pos hlt
    rw [crpLoop.eq_def, dif_pos hlt]
    simp only [hprev, hset]
    have hval : pows.getD (i - 1) 0 = δ ^ (2 ^ (i - 1)) := hinv (i - 1) (by omega)
    apply ih (i + 1) _ (by omega) (by omega) (by omega) (by simp [hlen])
    intro j hj
    rw [getD_set]
    by_cases hji : i = j
    · subst hji
      rw [if_pos ⟨rfl, by omega⟩, hval, ← pow_add]
      congr 1
      have h1i : i - 1 + 1 = i := by omega
      calc 2 ^ (i - 1) + 2 ^ (i - 1) = 2 ^ (i - 1) * 2 := by ring
        _ = 2 ^ (i - 1 + 1) := (pow_succ 2 (i - 1)).symm
        _ = 2 ^ i := by rw [h1i]
    · rw [if_neg (by tauto)]
      exact hinv j (by omega)

/-- Closed form of `compute_round_challenge_pows` for positive instance size:
entry `i` holds `δ^(2^i)` (repeated squaring). -/
theorem compute_round_challenge_pows_eq (t : ℕ) (ht : 1 ≤ t) (δ : F) :
    compute_round_challenge_pows t δ =
      some (List.ofFn fun i : Fin t => δ ^ (2 ^ (i : ℕ))) := by
  rw [compute_round_challenge_pows]
  have hset : setChecked (List.replicate t (0 : F)) 0 δ =
      some ((List.replicate t (0 : F)).set 0 δ) := by
    simp only [setChecked, List.length_replicate]
    exact if_pos (by omega)
  rw [hset]
  apply crpLoop_eq t δ (t - 1) 1 _ (by omega) le_rfl ht (by simp)
  intro j hj
  interval_cases j
  rw [getD_set, if_pos ⟨rfl, by simp; omega⟩]
  norm_num

/-!
Part 2: the perturbator tree of `ProtoGalaxyProver_`: `compute_level` and
`construct_perturbator_coeffs` from `protogalaxy_prover.hpp`.
-/

/-- Inner loop `for (size_t d = 0; d < degree; d++)` of `compute_level`:

        level_coeffs[parent][d] += prev_level_coeffs[node + 1][d] * betas[level];
        level_coeffs[parent][d + 1] += prev_level_coeffs[node + 1][d] * deltas[level];

`row` is the parent row being updated in place, `right` is
`prev_level_coeffs[node + 1]`; all vector accesses are checked. -/
def node_add_loop (β δ : F) (right : List F) (degree : ℕ) (d : ℕ) (row : List F) :
    Option (List F) :=
  if _h : d < degree then
    match right[d]? with
    | none => none
    | some r =>
      match addAt row d (r * β) with
      | none => none
      | some row₁ =>
        match addAt row₁ (d + 1) (r * δ) with
        | none => none
        | some row₂ => node_add_loop β δ right degree (d + 1) row₂
  else some row
termination_by degree - d

/-- Computation of one parent node of a level of the tree:
`std::copy(prev_level_coeffs[node].begin(), prev_level_coeffs[node].end(), level_coeffs[parent].begin())`
copies the left child into the freshly allocated zero row of length
`degree + 1` (a longer left child would write past the end), after which the
`d`-loop adds in the right child scaled by `betas[level]` and `deltas[level]`. -/
def node_coeffs (β δ : F) (degree : ℕ) (left right : List F) : Option (List F) :=
  if left.length ≤ degree + 1 then
    node_add_loop β δ right degree 0
      (left ++ List.replicate (degree + 1 - left.length) (0 : F))
  else none

/-- Loop `for (size_t node = 0; node < prev_level_width; node += 2)` of
`compute_level`, pairing consecutive rows of the previous level into
`prev_level_width / 2` parent rows.  An odd width would read
`prev_level_coeffs[node + 1]` past the end of the vector. -/
def level_coeffs (betas deltas : List F) (level degree : ℕ) :
    List (List F) → Option (List (List F))
  | [] => some []
  | [_] => none
  | left :: right :: rest =>
    match betas[level]?, deltas[level]? with
    | some β, some δ =>
      match node_coeffs β δ degree left right,
          level_coeffs betas deltas level degree rest with
      | some parent, some rest₁ => some (parent :: rest₁)
      | _, _ => none
    | _, _ => none

/-- Model of `ProtoGalaxyProver_::compute_level`.  At `level == betas.size()`
the root has been reached and `prev_level_coeffs[0]` is returned; otherwise
the next level is built with `degree = level + 1` and the function recurses at
`level + 1`.  When called with `level > betas.size()` the C++ recursion can
never reach its base case; that unreachable situation is modelled as `none`. -/
def compute_level (betas deltas : List F) (level : ℕ) (prev : List (List F)) :
    Option (List F) :=
  if level = betas.length then prev[0]?
  else if _h : level < betas.length then
    match level_coeffs betas deltas level (level + 1) prev with
    | none => none
    | some next => compute_level betas deltas (level + 1) next
  else none
termination_by betas.length - level

/-- Leaf level of `ProtoGalaxyProver_::construct_perturbator_coeffs`: the loop

        first_level_coeffs[idx][0] = full_honk_evaluations[node] + full_honk_evaluations[node + 1] * betas[0];
        first_level_coeffs[idx][1] = full_honk_evaluations[node + 1] * deltas[0];

pairing consecutive entries; an odd number of evaluations would read
`full_honk_evaluations[node + 1]` past the end. -/
def first_level_coeffs (betas deltas : List F) : List F → Option (List (List F))
  | [] => some []
  | [_] => none
  | v₀ :: v₁ :: rest =>
    match betas[0]?, deltas[0]? with
    | some β₀, some δ₀ =>
      match first_level_coeffs betas deltas rest with
      | some tail => some ([v₀ + v₁ * β₀, v₁ * δ₀] :: tail)
      | none => none
    | _, _ => none

/-- Model of `ProtoGalaxyProver_::construct_perturbator_coeffs`: build the
leaf level and hand it to `compute_level` starting at level 1. -/
def construct_perturbator_coeffs (betas deltas full_honk_evaluations : List F) :
    Option (List F) :=
  match first_level_coeffs betas deltas full_honk_evaluations with
  | none => none
  | some first => compute_level betas deltas 1 first

/-- Net value of one parent row produced by `node_coeffs`: the left child
(padded with zeros up to length `degree + 1`), plus the right child scaled by
`β`, plus the right child shifted up one degree and scaled by `δ`. -/
def nodeVal (β δ : F) (degree : ℕ) (left right : List F) : List F :=
  List.ofFn fun j : Fin (degree + 1) =>
    left.getD (j : ℕ) 0
      + (if 0 ≤ (j : ℕ) ∧ (j : ℕ) < degree then right.getD (j : ℕ) 0 * β else 0)
      + (if 0 < (j : ℕ) then right.getD ((j : ℕ) - 1) 0 * δ else 0)

theorem nodeVal_length (β δ : F) (degree : ℕ) (left right : List F) :
    (nodeVal β δ degree left right).length = degree + 1 := by
  simp [nodeVal]

theorem nodeVal_zero (β δ : F) (degree l r : ℕ) :
    nodeVal β δ degree (List.replicate l (0 : F)) (List.replicate r (0 : F)) =
      List.replicate (degree + 1) 0 := by
  rw [nodeVal, ← List.ofFn_const (degree + 1) (0 : F)]
  congr 1
  funext j
  rw [getD_replicate, getD_replicate, getD_replicate]
  split_ifs <;> ring

theorem node_add_loop_eq (β δ : F) (right : List F) (degree : ℕ) :
    ∀ n d row, degree - d = n → d ≤ degree → row.length = degree + 1 →
      degree ≤ right.length →
      node_add_loop β δ right degree d row =
        some (List.ofFn fun j : Fin (degree + 1) =>
          row.getD (j : ℕ) 0
            + (if d ≤ (j : ℕ) ∧ (j : ℕ) < degree then right.getD (j : ℕ) 0 * β else 0)
            + (if d < (j : ℕ) then right.getD ((j : ℕ) - 1) 0 * δ else 0)) := by
  intro n
  induction n with
  | zero =>
    -- loop exit: d = degree, the row is returned unchanged
    intro d row hn hd hlen hright
    rw [node_add_loop.eq_def, dif_neg (by omega)]
    congr 1
    refine eq_ofFn_of_getD row 0 _ (by omega) fun j => ?_
    have hj := j.isLt
    rw [if_neg (by omega), if_neg (by omega)]
    ring
  | succ n ih =>
    intro d row hn hd hlen hright
    have hlt : d < degree := by omega
    have hr : right[d]? = some (right.getD d 0) :=
      getElem?_eq_some_getD right d 0 (by omega)
    have ha₁ : addAt row d (right.getD d 0 * β) =
        some (row.set d (row.getD d 0 + right.getD d 0 * β)) := by
      simp only [addAt, getElem?_eq_some_getD row d 0 (by omega)]
    have hlen₁ : (row.set d (row.getD d 0 + right.getD d 0 * β)).length = degree + 1 := by
      simp [hlen]
    have ha₂ : addAt (row.set d (row.getD d 0 + right.getD d 0 * β)) (d + 1)
          (right.getD d 0 * δ) =
        some ((row.set d (row.getD d 0 + right.getD d 0 * β)).set (d + 1)
          ((row.set d (row.getD d 0 + right.getD d 0 * β)).getD (d + 1) 0
            + right.getD d 0 * δ)) := by
      simp only [addAt,
        getElem?_eq_some_getD (row.set d (row.getD d 0 + right.getD d 0 * β)) (d + 1) 0
          (by omega)]
    rw [node_add_loop.eq_def, dif_pos hlt]
    simp only [hr, ha₁, ha₂]
    rw [ih (d + 1) _ (by omega) (by omega) (by simp [hlen]) hright]
    refine congrArg _ (congrArg _ (funext fun jf => ?_))
    obtain ⟨j, hj⟩ := jf
    dsimp only
    simp only [getD_set, List.length_set, hlen, true_and, and_true]
    have hcases : j < d ∨ j = d ∨ j = d + 1 ∨ d + 1 < j := by omega
    rcases hcases with hc | hc | hc | hc
    · split_ifs <;> first | omega | ring
    · subst hc
      simp only [Nat.add_sub_cancel, eq_self_iff_true, true_and]
      split_ifs <;> first | omega | ring
    · subst hc
      simp only [Nat.add_sub_cancel, eq_self_iff_true, true_and]
      split_ifs <;> first | omega | ring
    · split_ifs <;> first | omega | ring

theorem node_coeffs_eq (β δ : F) (degree : ℕ) (left right : List F)
    (hl : left.length ≤ degree + 1) (hr : degree ≤ right.length) :
    node_coeffs β δ degree left right = some (nodeVal β δ degree left right) := by
  rw [node_coeffs, if_pos hl,
    node_add_loop_eq β δ right degree degree 0 _ (by omega) (by omega)
      (by simp; omega) hr]
  rw [nodeVal]
  refine congrArg _ (congrArg _ (funext fun j => ?_))
  rw [getD_append_replicate]

theorem first_level_coeffs_eq (betas deltas : List F) (hβ : 0 < betas.length)
    (hδ : 0 < deltas.length) :
    ∀ n (v : List F), v.length = 2 * n →
      ∃ l, first_level_coeffs betas deltas v = some l ∧ l.length = n ∧
        ∀ i < n, l.getD i [] =
          [v.getD (2 * i) 0 + v.getD (2 * i + 1) 0 * betas.getD 0 0,
           v.getD (2 * i + 1) 0 * deltas.getD 0 0] := by
  intro n
  induction n with
  | zero =>
    intro v hv
    have hnil : v = [] := List.eq_nil_of_length_eq_zero (by omega)
    subst hnil
    exact ⟨[], rfl, rfl, by omega⟩
  | succ n ih =>
    intro v hv
    rcases v with _ | ⟨v₀, rest₀⟩
    · simp at hv
    rcases rest₀ with _ | ⟨v₁, rest⟩
    · simp at hv; omega
    have hrest : rest.length = 2 * n := by
      simp only [List.length_cons] at hv; omega
    obtain ⟨l, hl, hlen, hpt⟩ := ih rest hrest
    refine ⟨[v₀ + v₁ * betas.getD 0 0, v₁ * deltas.getD 0 0] :: l, ?_,
      by simp [hlen], ?_⟩
    · simp only [first_level_coeffs, getElem?_eq_some_getD betas 0 0 hβ,
        getElem?_eq_some_getD deltas 0 0 hδ, hl]
    · intro i hi
      cases i with
      | zero => simp [List.getD_cons_zero, List.getD_cons_succ]
      | succ i =>
        have h2 : 2 * (i + 1) = 2 * i + 1 + 1 := by ring
        rw [List.getD_cons_succ, h2]
        simp only [List.getD_cons_succ]
        exact hpt i (by omega)

theorem level_coeffs_eq (betas deltas : List F) (level degree : ℕ)
    (hβ : level < betas.length) (hδ : level < deltas.length) :
    ∀ n (prev : List (List F)), prev.length = 2 * n →
      (∀ row ∈ prev, row.length = degree) →
      ∃ next, level_coeffs betas deltas level degree prev = some next ∧
        next.length = n ∧
        ∀ i < n, next.getD i [] =
          nodeVal (betas.getD level 0) (deltas.getD level 0) degree
            (prev.getD (2 * i) []) (prev.getD (2 * i + 1) []) := by
  intro n
  induction n with
  | zero =>
    intro prev hlen _hrows
    have hnil : prev = [] := List.eq_nil_of_length_eq_zero (by omega)
    subst hnil
    exact ⟨[], rfl, rfl, by omega⟩
  | succ n ih =>
    intro prev hlen hrows
    rcases prev with _ | ⟨left, rest₀⟩
    · simp at hlen
    rcases rest₀ with _ | ⟨right, rest⟩
    · simp at hlen; omega
    have hrest : rest.length = 2 * n := by
      simp only [List.length_cons] at hlen; omega
    have hrowrest : ∀ row ∈ rest, row.length = degree := fun row hr =>
      hrows row (by simp [hr])
    obtain ⟨next, hnext, hlen', hpt⟩ := ih rest hrest hrowrest
    have hleft : left.length = degree := hrows left (by simp)
    have hright : right.length = degree := hrows right (by simp)
    have hnode := node_coeffs_eq (betas.getD level 0) (deltas.getD level 0) degree
      left right (by omega) (by omega)
    refine ⟨nodeVal (betas.getD level 0) (deltas.getD level 0) degree left right :: next,
      ?_, by simp [hlen'], ?_⟩
    · simp only [level_coeffs, getElem?_eq_some_getD betas level 0 hβ,
        getElem?_eq_some_getD deltas level 0 hδ, hnode, hnext]
    · intro i hi
      cases i with
      | zero => simp [List.getD_cons_zero]
      | succ i =>
        have h2 : 2 * (i + 1) = 2 * i + 1 + 1 := by ring
        rw [List.getD_cons_succ, h2]
        simp only [List.getD_cons_succ]
        exact hpt i (by omega)

theorem compute_level_eq (betas deltas : List F) (hβδ : betas.length ≤ deltas.length) :
    ∀ n level prev, betas.length - level = n → 1 ≤ level → level ≤ betas.length →
      prev.length = 2 ^ (betas.length - level) →
      (∀ row ∈ prev, row.length = level + 1) →
      ∃ out, compute_level betas deltas level prev = some out ∧
        out.length = betas.length + 1 := by
  intro n
  induction n with
  | zero =>
    intro level prev hn h1 hle hlen hrows
    have hl : level = betas.length := by omega
    rw [compute_level.eq_def, if_pos hl]
    have hlen1 : prev.length = 1 := by
      rw [hlen, hn]; rfl
    refine ⟨prev.getD 0 [], getElem?_eq_some_getD prev 0 [] (by omega), ?_⟩
    have hmem : prev.getD 0 [] ∈ prev := by
      rw [List.getD_eq_getElem prev [] (by omega)]
      exact List.getElem_mem _
    rw [hrows _ hmem, hl]
  | succ n ih =>
    intro level prev hn h1 hle hlen hrows
    have hlt : level < betas.length := by omega
    have hexp : betas.length - level = (betas.length - (level + 1)) + 1 := by omega
    have hw : prev.length = 2 ^ (betas.length - (level + 1)) * 2 := by
      rw [hlen, hexp, pow_succ]
    obtain ⟨next, hnext, hlen', hpt⟩ :=
      level_coeffs_eq betas deltas level (level + 1) hlt (by omega)
        (2 ^ (betas.length - (level + 1))) prev (by omega) hrows
    have hrows' : ∀ row ∈ next, row.length = (level + 1) + 1 := by
      intro row hr
      obtain ⟨i, hi, hval⟩ := List.mem_iff_getElem.mp hr
      have hgd : next.getD i [] = row := by
        rw [List.getD_eq_getElem next [] hi, hval]
      rw [← hgd, hpt i (by omega)]
      exact nodeVal_length _ _ _ _ _
    rw [compute_level.eq_def, if_neg (by omega), dif_pos hlt]
    simp only [hnext]
    exact ih (level + 1) next (by omega) (by omega) (by omega) (by omega) hrows'

theorem compute_level_zero (betas deltas : List F) (hβδ : betas.length ≤ deltas.length) :
    ∀ n level prev, betas.length - level = n → 1 ≤ level → level ≤ betas.length →
      prev.length = 2 ^ (betas.length - level) →
      (∀ row ∈ prev, row = List.replicate (level + 1) (0 : F)) →
      compute_level betas deltas level prev =
        some (List.replicate (betas.length + 1) 0) := by
  intro n
  induction n with
  | zero =>
    intro level prev hn h1 hle hlen hrows
    have hl : level = betas.length := by omega
    rw [compute_level.eq_def, if_pos hl]
    have hlen1 : prev.length = 1 := by
      rw [hlen, hn]; rfl
    rw [getElem?_eq_some_getD prev 0 [] (by omega)]
    have hmem : prev.getD 0 [] ∈ prev := by
      rw [List.getD_eq_getElem prev [] (by omega)]
      exact List.getElem_mem _
    rw [hrows _ hmem, hl]
  | succ n ih =>
    intro level prev hn h1 hle hlen hrows
    have hlt : level < betas.length := by omega
    have hexp : betas.length - level = (betas.length - (level + 1)) + 1 := by omega
    have hw : prev.length = 2 ^ (betas.length - (level + 1)) * 2 := by
      rw [hlen, hexp, pow_succ]
    have hrowlens : ∀ row ∈ prev, row.length = level + 1 := by
      intro row hr
      rw [hrows row hr]
      exact List.length_replicate _ _
    obtain ⟨next, hnext, hlen', hpt⟩ :=
      level_coeffs_eq betas deltas level (level + 1) hlt (by omega)
        (2 ^ (betas.length - (level + 1))) prev (by omega) hrowlens
    have hrows' : ∀ row ∈ next, row = List.replicate ((level + 1) + 1) (0 : F) := by
      intro row hr
      obtain ⟨i, hi, hval⟩ := List.mem_iff_getElem.mp hr
      have hgd : next.getD i [] = row := by
        rw [List.getD_eq_getElem next [] hi, hval]
      have h2i : prev.getD (2 * i) [] = List.replicate (level + 1) (0 : F) := by
        refine hrows _ ?_
        rw [List.getD_eq_getElem prev [] (by omega)]
        exact List.getElem_mem _
      have h2i1 : prev.getD (2 * i + 1) [] = List.replicate (level + 1) (0 : F) := by
        refine hrows _ ?_
        rw [List.getD_eq_getElem prev [] (by omega)]
        exact List.getElem_mem _
      rw [← hgd, hpt i (by omega), h2i, h2i1, nodeVal_zero]
    rw [compute_level.eq_def, if_neg (by omega), dif_pos hlt]
    simp only [hnext]
    exact ih (level + 1) next (by omega) (by omega) (by omega) (by omega) hrows'

theorem construct_perturbator_coeffs_spec (t : ℕ) (betas deltas evals : List F)
    (ht : 1 ≤ t) (hβ : betas.length = t) (hδ : deltas.length = t)
    (hev : evals.length = 2 ^ t) :
    ∃ out, construct_perturbator_coeffs betas deltas evals = some out ∧
      out.length = t + 1 := by
  have hhalf : evals.length = 2 * 2 ^ (t - 1) := by
    have hts : (2 : ℕ) ^ t = 2 * 2 ^ (t - 1) := by
      have h : t = (t - 1) + 1 := by omega
      calc (2 : ℕ) ^ t = 2 ^ ((t - 1) + 1) := by rw [← h]
        _ = 2 ^ (t - 1) * 2 := pow_succ 2 (t - 1)
        _ = 2 * 2 ^ (t - 1) := by ring
    rw [hev]
    exact hts
  obtain ⟨l, hl, hlen, hpt⟩ := first_level_coeffs_eq betas deltas (by omega) (by omega)
    (2 ^ (t - 1)) evals hhalf
  have hrows : ∀ row ∈ l, row.length = 1 + 1 := by
    intro row hr
    obtain ⟨i, hi, hval⟩ := List.mem_iff_getElem.mp hr
    have hgd : l.getD i [] = row := by
      rw [List.getD_eq_getElem l [] hi, hval]
    rw [← hgd, hpt i (by omega)]
    rfl
  obtain ⟨out, hout, houtlen⟩ := compute_level_eq betas deltas (by omega) (t - 1) 1 l
    (by omega) (by omega) (by omega) (by rw [hlen, hβ]) hrows
  refine ⟨out, ?_, by rw [houtlen, hβ]⟩
  simp only [construct_perturbator_coeffs, hl]
  exact hout

theorem construct_perturbator_coeffs_zero_spec (t : ℕ) (betas deltas : List F)
    (ht : 1 ≤ t) (hβ : betas.length = t) (hδ : deltas.length = t) :
    construct_perturbator_coeffs betas deltas (List.replicate (2 ^ t) (0 : F)) =
      some (List.replicate (t + 1) 0) := by
  have hts : (2 : ℕ) ^ t = 2 * 2 ^ (t - 1) := by
    have h : t = (t - 1) + 1 := by omega
    calc (2 : ℕ) ^ t = 2 ^ ((t - 1) + 1) := by rw [← h]
      _ = 2 ^ (t - 1) * 2 := pow_succ 2 (t - 1)
      _ = 2 * 2 ^ (t - 1) := by ring
  obtain ⟨l, hl, hlen, hpt⟩ := first_level_coeffs_eq betas deltas (by omega) (by omega)
    (2 ^ (t - 1)) (List.replicate (2 ^ t) (0 : F)) (by simp [hts])
  have hrows : ∀ row ∈ l, row = List.replicate (1 + 1) (0 : F) := by
    intro row hr
    obtain ⟨i, hi, hval⟩ := List.mem_iff_getElem.mp hr
    have hgd : l.getD i [] = row := by
      rw [List.getD_eq_getElem l [] hi, hval]
    rw [← hgd, hpt i (by omega), getD_replicate, getD_replicate]
    simp
  have hfin := compute_level_zero betas deltas (by omega) (t - 1) 1 l
    (by omega) (by omega) (by omega) (by rw [hlen, hβ]) hrows
  simp only [construct_perturbator_coeffs, hl]
  rw [hfin, hβ]

/-- Claim C1 (amended): for every `log_instance_size = t ≥ 1` and every field
element `δ`, `compute_round_challenge_pows(t, δ)` returns the length-`t`
sequence whose element at index `i` equals `δ` raised to the power `2^i`
(each element is the square of its predecessor), not `δ^(i+1)`. -/
theorem round_challenge_pows_squares (t : ℕ) (ht : 1 ≤ t) (δ : F) :
    compute_round_challenge_pows t δ =
      some (List.ofFn fun i : Fin t => δ ^ (2 ^ (i : ℕ))) :=
  compute_round_challenge_pows_eq t ht δ

/-- Witness for claim C1's amended theorem at `t = 3`, `δ = 2` over `ℚ`. -/
theorem round_challenge_pows_squares_witness :
    compute_round_challenge_pows 3 (2 : ℚ) =
      some (List.ofFn fun i : Fin 3 => (2 : ℚ) ^ (2 ^ (i : ℕ))) :=
  round_challenge_pows_squares 3 (by norm_num) 2

/-- Counterexample to claim C1 as stated: at `t = 3`, `δ = 2` over `ℚ` the
element at index `2` is `2^4 = 16`, not `2^(2+1) = 8`. -/
theorem round_challenge_pows_not_linear_powers :
    compute_round_challenge_pows 3 (2 : ℚ) = some [2, 4, 16] ∧
      (16 : ℚ) ≠ (2 : ℚ) ^ (2 + 1) := by
  constructor
  · rw [compute_round_challenge_pows_eq 3 (by norm_num) 2]
    congr 1
  · norm_num

/-- Claim C2: for every field element `δ`,
`compute_round_challenge_pows(4, δ)` returns exactly `[δ, δ², δ⁴, δ⁸]`
(square-and-store, not repeated multiplication by `δ`). -/
theorem round_challenge_pows_four (δ : F) :
    compute_round_challenge_pows 4 δ = some [δ, δ ^ 2, δ ^ 4, δ ^ 8] := by
  rw [compute_round_challenge_pows_eq 4 (by norm_num) δ]
  congr 1
  simp [List.ofFn_succ]

/-- Witness for claim C2's theorem at `δ = 3` over `ℚ`. -/
theorem round_challenge_pows_four_witness :
    compute_round_challenge_pows 4 (3 : ℚ) =
      some [3, 3 ^ 2, 3 ^ 4, 3 ^ 8] :=
  round_challenge_pows_four 3

/-- Claim C10: `compute_round_challenge_pows` writes `pows[0]`
unconditionally, so for every `log_instance_size = t ≥ 1` every vector access
is in bounds and the result has exactly `t` elements, whereas the call with
`t = 0` performs an out-of-bounds write into the empty vector (modelled as
`none`). -/
theorem round_challenge_pows_bounds_safety (t : ℕ) (δ : F) (ht : 1 ≤ t) :
    Option.map List.length (compute_round_challenge_pows t δ) = some t ∧
      compute_round_challenge_pows 0 δ = none := by
  refine ⟨?_, rfl⟩
  rw [compute_round_challenge_pows_eq t ht δ]
  simp

/-- Witness for claim C10's theorem at `t = 4`, `δ = 5` over `ℚ`. -/
theorem round_challenge_pows_bounds_safety_witness :
    Option.map List.length (compute_round_challenge_pows 4 (5 : ℚ)) = some 4 ∧
      compute_round_challenge_pows 0 (5 : ℚ) = none :=
  round_challenge_pows_bounds_safety 4 5 (by norm_num)

/-- Claim C3: for every even-length evaluation vector `v` of length `n ≥ 2`
and nonempty `betas` and `deltas`, the leaf level of the perturbator
construction produces exactly `n / 2` coefficient pairs, where pair `i`
(built from rows `2i` and `2i+1`) equals
`[v₂ᵢ + betas[0]·v₂ᵢ₊₁, deltas[0]·v₂ᵢ₊₁]`. -/
theorem first_level_coeffs_pairs (betas deltas v : List F)
    (hβ : betas ≠ []) (hδ : deltas ≠ []) (_hn : 2 ≤ v.length)
    (heven : v.length % 2 = 0) :
    ∃ l, first_level_coeffs betas deltas v = some l ∧ l.length = v.length / 2 ∧
      ∀ i < v.length / 2,
        l.getD i [] = [v.getD (2 * i) 0 + betas.getD 0 0 * v.getD (2 * i + 1) 0,
                       deltas.getD 0 0 * v.getD (2 * i + 1) 0] := by
  obtain ⟨l, hl, hlen, hpt⟩ := first_level_coeffs_eq betas deltas
    (List.length_pos.mpr hβ) (List.length_pos.mpr hδ) (v.length / 2) v (by omega)
  refine ⟨l, hl, hlen, ?_⟩
  intro i hi
  rw [hpt i hi, mul_comm (v.getD (2 * i + 1) 0) (betas.getD 0 0),
    mul_comm (v.getD (2 * i + 1) 0) (deltas.getD 0 0)]

/-- Witness for claim C3's theorem with `betas = [2]`, `deltas = [3]`,
`v = [5, 7]` over `ℚ`. -/
theorem first_level_coeffs_pairs_witness :
    ∃ l, first_level_coeffs ([2] : List ℚ) [3] [5, 7] = some l ∧
      l.length = ([5, 7] : List ℚ).length / 2 ∧
      ∀ i < ([5, 7] : List ℚ).length / 2,
        l.getD i [] =
          [([5, 7] : List ℚ).getD (2 * i) 0 +
              ([2] : List ℚ).getD 0 0 * ([5, 7] : List ℚ).getD (2 * i + 1) 0,
           ([3] : List ℚ).getD 0 0 * ([5, 7] : List ℚ).getD (2 * i + 1) 0] :=
  first_level_coeffs_pairs [2] [3] [5, 7] (by simp) (by simp) (by norm_num)
    (by norm_num)

/-- Claim C4: for every level `k` with `1 ≤ k < t`, the level-`k` body of
`compute_level` pairs the previous level's coefficient vectors of length
`k + 1` into half as many vectors of length `k + 2`, where for each pair
`(left, right)` the result equals `left` extended with a zero coefficient,
then for every degree `d` from `0` to `k` the coefficient `d` is increased by
`right[d]·betas[k]` and coefficient `d + 1` is increased by
`right[d]·deltas[k]`. -/
theorem level_coeffs_step (betas deltas : List F) (k : ℕ) (prev : List (List F))
    (hk1 : 1 ≤ k) (hkβ : k < betas.length) (hkδ : k < deltas.length)
    (heven : prev.length % 2 = 0) (hrows : ∀ row ∈ prev, row.length = k + 1) :
    ∃ next, level_coeffs betas deltas k (k + 1) prev = some next ∧
      next.length = prev.length / 2 ∧
      ∀ i < prev.length / 2, (next.getD i []).length = k + 2 ∧
        ∀ j < k + 2,
          (next.getD i []).getD j 0 =
            ((prev.getD (2 * i) []) ++ [0]).getD j 0
              + (prev.getD (2 * i + 1) []).getD j 0 * betas.getD k 0
              + (if j = 0 then 0
                 else (prev.getD (2 * i + 1) []).getD (j - 1) 0 * deltas.getD k 0) := by
  obtain ⟨next, hnext, hlen, hpt⟩ := level_coeffs_eq betas deltas k (k + 1) hkβ hkδ
    (prev.length / 2) prev (by omega) hrows
  refine ⟨next, hnext, hlen, ?_⟩
  intro i hi
  have hrow := hpt i hi
  have hright : (prev.getD (2 * i + 1) []).length = k + 1 := by
    refine hrows _ ?_
    rw [List.getD_eq_getElem prev [] (by omega)]
    exact List.getElem_mem _
  refine ⟨by rw [hrow]; exact nodeVal_length _ _ _ _ _, ?_⟩
  intro j hj
  rw [hrow, nodeVal, getD_ofFn _ 0 j (by omega)]
  dsimp only
  have happ : ((prev.getD (2 * i) []) ++ [(0 : F)]).getD j 0 =
      (prev.getD (2 * i) []).getD j 0 := by
    have h01 : [(0 : F)] = List.replicate 1 0 := rfl
    rw [h01, getD_append_replicate]
  rw [happ]
  by_cases hj0 : j = 0
  · subst hj0
    have hc1 : 0 ≤ 0 ∧ 0 < k + 1 := ⟨le_refl 0, by omega⟩
    rw [if_pos hc1, if_neg (by omega : ¬ (0 : ℕ) < 0), if_pos rfl]
  · by_cases hjk : j < k + 1
    · have hc1 : 0 ≤ j ∧ j < k + 1 := ⟨Nat.zero_le j, hjk⟩
      rw [if_pos hc1, if_pos (by omega : 0 < j), if_neg hj0]
    · have hjlen : (prev.getD (2 * i + 1) []).length ≤ j := by omega
      rw [if_neg (by omega : ¬ (0 ≤ j ∧ j < k + 1)), if_pos (by omega : 0 < j),
        if_neg hj0, getD_of_length_le _ j 0 hjlen]
      ring

/-- Witness for claim C4's theorem with `k = 1`, `betas = [9, 2]`,
`deltas = [8, 3]`, `prev = [[1, 2], [3, 4]]` over `ℚ`. -/
theorem level_coeffs_step_witness :
    ∃ next, level_coeffs ([9, 2] : List ℚ) [8, 3] 1 (1 + 1) [[1, 2], [3, 4]] =
        some next ∧
      next.length = ([[1, 2], [3, 4]] : List (List ℚ)).length / 2 ∧
      ∀ i < ([[1, 2], [3, 4]] : List (List ℚ)).length / 2,
        (next.getD i []).length = 1 + 2 ∧
        ∀ j < 1 + 2,
          (next.getD i []).getD j 0 =
            ((([[1, 2], [3, 4]] : List (List ℚ)).getD (2 * i) []) ++ [0]).getD j 0
              + (([[1, 2], [3, 4]] : List (List ℚ)).getD (2 * i + 1) []).getD j 0 *
                  ([9, 2] : List ℚ).getD 1 0
              + (if j = 0 then 0
                 else (([[1, 2], [3, 4]] : List (List ℚ)).getD (2 * i + 1) []).getD
                     (j - 1) 0 * ([8, 3] : List ℚ).getD 1 0) :=
  level_coeffs_step [9, 2] [8, 3] 1 [[1, 2], [3, 4]] (by norm_num) (by norm_num)
    (by norm_num) (by norm_num)
    (by intro row hrow; fin_cases hrow <;> rfl)

/-- Claim C5: for every `t ≥ 1`, `betas` and `deltas` of length `t` and a
full-relation-value vector of length `2^t`, `construct_perturbator_coeffs`
terminates successfully (every access in bounds, the working width halving at
each of the `t` levels) and returns exactly `t + 1` coefficients. -/
theorem construct_perturbator_coeffs_length (t : ℕ) (betas deltas evals : List F)
    (ht : 1 ≤ t) (hβ : betas.length = t) (hδ : deltas.length = t)
    (hev : evals.length = 2 ^ t) :
    ∃ out, construct_perturbator_coeffs betas deltas evals = some out ∧
      out.length = t + 1 :=
  construct_perturbator_coeffs_spec t betas deltas evals ht hβ hδ hev

/-- Witness for claim C5's theorem at `t = 1`, `betas = [5]`, `deltas = [7]`,
`evals = [1, 2]` over `ℚ`. -/
theorem construct_perturbator_coeffs_length_witness :
    ∃ out, construct_perturbator_coeffs ([5] : List ℚ) [7] [1, 2] = some out ∧
      out.length = 1 + 1 :=
  construct_perturbator_coeffs_length 1 [5] [7] [1, 2] (by norm_num) rfl rfl rfl

/-- Claim C6: for every `t ≥ 1` and every `betas` and `deltas` of length `t`,
if every entry of the full-relation-value vector of length `2^t` is zero then
`construct_perturbator_coeffs` returns the all-zero coefficient vector of
length `t + 1`, regardless of `betas` and `deltas`. -/
theorem construct_perturbator_coeffs_all_zero (t : ℕ) (betas deltas : List F)
    (ht : 1 ≤ t) (hβ : betas.length = t) (hδ : deltas.length = t) :
    construct_perturbator_coeffs betas deltas (List.replicate (2 ^ t) (0 : F)) =
      some (List.replicate (t + 1) 0) :=
  construct_perturbator_coeffs_zero_spec t betas deltas ht hβ hδ

/-- Witness for claim C6's theorem: the `t = 3`, `n = 8` instance of the
claim, with `betas = [1, 2, 3]`, `deltas = [4, 5, 6]` over `ℚ`; the result is
`[0, 0, 0, 0]`. -/
theorem construct_perturbator_coeffs_all_zero_witness :
    construct_perturbator_coeffs ([1, 2, 3] : List ℚ) [4, 5, 6]
        (List.replicate (2 ^ 3) 0) = some (List.replicate (3 + 1) 0) :=
  construct_perturbator_coeffs_all_zero 3 [1, 2, 3] [4, 5, 6] (by norm_num) rfl rfl

end ProtoGalaxyProver

/-!
Part 3: the lookup grand-product relation (`lookup_relation.hpp`) in scalar
(verifier) mode, where `Accumulator` is the field itself and `View` is the
identity, and `ECCVMSetRelationBase::convert_to_wnaf`
(`ecc_set_relation.hpp`).
-/

/-- Protocol randomness shared by all relations.  The defining header
(`relation_parameters.hpp`) is not part of the excerpt; the field list follows
the spec's data model
`{beta, gamma, eta, eta_sqr, eta_cube, public_input_delta, lookup_grand_product_delta}`,
which matches every access made by the excerpted relation code. -/
structure RelationParameters (F : Type*) where
  beta : F
  gamma : F
  eta : F
  eta_sqr : F
  eta_cube : F
  public_input_delta : F
  lookup_grand_product_delta : F

/-- One evaluated row of the prover polynomials (`AllEntities` in scalar,
i.e. verifier, mode): exactly the columns read by `LookupRelationImpl`. -/
structure LookupEntities (F : Type*) where
  w_l : F
  w_r : F
  w_o : F
  w_l_shift : F
  w_r_shift : F
  w_o_shift : F
  table_1 : F
  table_2 : F
  table_3 : F
  table_4 : F
  table_1_shift : F
  table_2_shift : F
  table_3_shift : F
  table_4_shift : F
  q_o : F
  q_r : F
  q_m : F
  q_c : F
  q_lookup : F
  sorted_accum : F
  sorted_accum_shift : F
  z_lookup : F
  z_lookup_shift : F
  lagrange_first : F
  lagrange_last : F

namespace LookupRelationImpl

variable {F : Type*} [Field F]

/-- Model of `LookupRelationImpl::compute_grand_product_numerator` in scalar
mode, following the source line by line (note `eta_sqr` and `eta_cube` are
recomputed locally from `eta`). -/
def compute_grand_product_numerator (p : RelationParameters F)
    (new_term : LookupEntities F) : F :=
  let beta := p.beta
  let gamma := p.gamma
  let eta := p.eta
  let eta_sqr := eta * eta
  let eta_cube := eta_sqr * eta
  let one_plus_beta := (1 : F) + beta
  let gamma_by_one_plus_beta := gamma * one_plus_beta
  let w_1 := new_term.w_l
  let w_2 := new_term.w_r
  let w_3 := new_term.w_o
  let w_1_shift := new_term.w_l_shift
  let w_2_shift := new_term.w_r_shift
  let w_3_shift := new_term.w_o_shift
  let table_index := new_term.q_o
  let column_1_step_size := new_term.q_r
  let column_2_step_size := new_term.q_m
  let column_3_step_size := new_term.q_c
  let q_lookup := new_term.q_lookup
  let wire_accum := (w_1 + column_1_step_size * w_1_shift)
    + (w_2 + column_2_step_size * w_2_shift) * eta
    + (w_3 + column_3_step_size * w_3_shift) * eta_sqr + table_index * eta_cube
  let table_accum := new_term.table_1 + new_term.table_2 * eta
    + new_term.table_3 * eta_sqr + new_term.table_4 * eta_cube
  let table_accum_shift := new_term.table_1_shift + new_term.table_2_shift * eta
    + new_term.table_3_shift * eta_sqr + new_term.table_4_shift * eta_cube
  let tmp := q_lookup * wire_accum + gamma
  let tmp := tmp * (table_accum + table_accum_shift * beta + gamma_by_one_plus_beta)
  let tmp := tmp * one_plus_beta
  tmp

/-- Model of `LookupRelationImpl::compute_grand_product_denominator` in
scalar mode. -/
def compute_grand_product_denominator (p : RelationParameters F)
    (input : LookupEntities F) : F :=
  let beta := p.beta
  let gamma := p.gamma
  let one_plus_beta := (1 : F) + beta
  let gamma_by_one_plus_beta := gamma * one_plus_beta
  let s_accum := input.sorted_accum
  let s_accum_shift := input.sorted_accum_shift
  let tmp := s_accum + s_accum_shift * beta + gamma_by_one_plus_beta
  tmp

/-- Model of `LookupRelationImpl::accumulate` in scalar mode: the two
subrelation accumulators are a pair of field elements, both updated with
`+=` of the scaled contribution. -/
def accumulate (accumulators : F × F) (new_term : LookupEntities F)
    (relation_parameters : RelationParameters F) (scaling_factor : F) : F × F :=
  let grand_product_delta := relation_parameters.lookup_grand_product_delta
  let lhs := compute_grand_product_numerator relation_parameters new_term
  let rhs := compute_grand_product_denominator relation_parameters new_term
  let tmp := lhs * (new_term.z_lookup + new_term.lagrange_first)
    - rhs * (new_term.z_lookup_shift + new_term.lagrange_last * grand_product_delta)
  (accumulators.1 + tmp * scaling_factor,
   accumulators.2 + new_term.lagrange_last * new_term.z_lookup_shift * scaling_factor)

/-- Relation parameters `β = 2, γ = 3, η = 5` of the lookup scenario of the
spec (the cached `eta_sqr`, `eta_cube` fields are unused by the lookup
relation, which recomputes them). -/
def exampleParams : RelationParameters F :=
  ⟨2, 3, 5, 25, 125, 0, 0⟩

/-- Row of the lookup scenario of the spec: `w_1 = 1`, all other wires,
shifts, table columns except `table_1 = 1`, and all selectors except
`q_lookup = 1` zero; `sorted_accum = 1`, `sorted_accum_shift = 0`. -/
def exampleRow : LookupEntities F :=
  ⟨1, 0, 0, 0, 0, 0, 1, 0, 0, 0, 0, 0, 0, 0, 0, 0, 0, 0, 1, 1, 0, 0, 0, 0, 0⟩

/-- Claim C7: in scalar (verifier) mode, with `β = 2, γ = 3, η = 5` and the
spec's one-row scenario (`w_1 = 1`, table column `t_1 = 1`, `q_lookup = 1`,
everything else zero, `sorted_accum = 1`, `sorted_accum_shift = 0`),
`compute_grand_product_numerator` returns `120` and
`compute_grand_product_denominator` returns `10`. -/
theorem lookup_numerator_denominator_example :
    compute_grand_product_numerator (exampleParams : RelationParameters F)
        exampleRow = 120 ∧
      compute_grand_product_denominator (exampleParams : RelationParameters F)
        exampleRow = 10 := by
  constructor
  · show (((1 : F) * ((1 + 0 * 0) + (0 + 0 * 0) * 5 + (0 + 0 * 0) * (5 * 5)
        + 0 * (5 * 5 * 5)) + 3)
        * ((1 + 0 * 5 + 0 * (5 * 5) + 0 * (5 * 5 * 5))
          + (0 + 0 * 5 + 0 * (5 * 5) + 0 * (5 * 5 * 5)) * 2 + 3 * (1 + 2)))
        * (1 + 2) = 120
    norm_num
  · show (1 : F) + 0 * 2 + 3 * (1 + 2) = 10
    norm_num

/-- Claim C8: `LookupRelationImpl::accumulate` is additive in the
caller-supplied accumulator: for every initial contents `(a₀, a₁)`, row data,
relation parameters and scaling factor `s` the result is
`(a₀ + c₀·s, a₁ + c₁·s)`, where `c₀` is the grand-product-construction
contribution and `c₁ = lagrange_last · z_lookup_shift` depend only on the row
data and the relation parameters; the prior contents are never overwritten
nor read into the contribution. -/
theorem accumulate_additive (acc : F × F) (new_term : LookupEntities F)
    (p : RelationParameters F) (s : F) :
    accumulate acc new_term p s =
      (acc.1 + (compute_grand_product_numerator p new_term
            * (new_term.z_lookup + new_term.lagrange_first)
          - compute_grand_product_denominator p new_term
            * (new_term.z_lookup_shift
              + new_term.lagrange_last * p.lookup_grand_product_delta)) * s,
       acc.2 + new_term.lagrange_last * new_term.z_lookup_shift * s) := rfl

/-- Witness for claim C7's theorem over the concrete field `ℚ`. -/
theorem lookup_numerator_denominator_example_witness :
    compute_grand_product_numerator (exampleParams : RelationParameters ℚ)
        exampleRow = 120 ∧
      compute_grand_product_denominator (exampleParams : RelationParameters ℚ)
        exampleRow = 10 :=
  lookup_numerator_denominator_example

/-- Witness for claim C8's theorem at the accumulator `(1, 2)`, the example
row and parameters, and scaling factor `4` over `ℚ`. -/
theorem accumulate_additive_witness :
    accumulate ((1, 2) : ℚ × ℚ) exampleRow exampleParams 4 =
      ((1 : ℚ) + (compute_grand_product_numerator exampleParams exampleRow
            * (exampleRow.z_lookup + exampleRow.lagrange_first)
          - compute_grand_product_denominator exampleParams exampleRow
            * (exampleRow.z_lookup_shift
              + exampleRow.lagrange_last * exampleParams.lookup_grand_product_delta)) * 4,
       (2 : ℚ) + exampleRow.lagrange_last * exampleRow.z_lookup_shift * 4) :=
  accumulate_additive (1, 2) exampleRow exampleParams 4

end LookupRelationImpl

namespace ECCVMSetRelationBase

variable {F : Type*} [Field F]

/-- Model of `ECCVMSetRelationBase::convert_to_wnaf`:

        auto t = s0 + s0;
        t += t;
        t += s1;
        auto naf = t + t - 15;
        return naf;
-/
def convert_to_wnaf (s0 s1 : F) : F :=
  let t₁ := s0 + s0
  let t₂ := t₁ + t₁
  let t₃ := t₂ + s1
  let naf := t₃ + t₃ - 15
  naf

/-- Claim C9: for every pair of inputs `s0` and `s1`,
`convert_to_wnaf(s0, s1)` returns `2·(4·s0 + s1) − 15`. -/
theorem convert_to_wnaf_eq (s0 s1 : F) :
    convert_to_wnaf s0 s1 = 2 * (4 * s0 + s1) - 15 := by
  simp only [convert_to_wnaf]
  ring

/-- Witness for claim C9's theorem at `s0 = 3`, `s1 = 2` over `ℚ`. -/
theorem convert_to_wnaf_eq_witness :
    convert_to_wnaf (3 : ℚ) 2 = 2 * (4 * 3 + 2) - 15 :=
  convert_to_wnaf_eq 3 2

end ECCVMSetRelationBase

end Barretenberg
